import Mathlib

/-
Verification of the Ultra Pomodoro backend (`server.py`).

The development shallowly embeds the hosts-block manager
(`strip_ultra_block_section`, `expand_domains`, `apply_hosts_block`,
`clear_hosts_block`), the resolution prober (`resolve_all`) and the
Socket.IO room handlers (`on_room_join`, `on_room_leave`,
`on_timer_sync`, `on_timer_penalty`).  Documents and Python strings are
modelled as `List Char`; the file system is a small explicit state
recording the hosts document and the number of reads and writes; DNS
resolution is an oracle argument.
-/

namespace Pmdr

/-- The literal `HOSTS_TAG_START` marker line. -/
def TAG_START : List Char := "# === ULTRA_POMODORO_BLOCK_START ===".data

/-- The literal `HOSTS_TAG_END` marker line. -/
def TAG_END : List Char := "# === ULTRA_POMODORO_BLOCK_END ===".data

/-- Python whitespace predicate used by `str.strip` / `str.rstrip` (ASCII part). -/
def pyIsSpace (c : Char) : Bool :=
  c = ' ' || c = '\t' || c = '\n' || c = '\r' || c = '\x0b' || c = '\x0c'

/-- Python `str.rstrip()`: remove trailing whitespace. -/
def rstrip (s : List Char) : List Char := (s.reverse.dropWhile pyIsSpace).reverse

/-- Python `str.lstrip()`: remove leading whitespace. -/
def lstrip (s : List Char) : List Char := s.dropWhile pyIsSpace

/-- Python `str.strip()`. -/
def pyStrip (s : List Char) : List Char := rstrip (lstrip s)

/-- Position of the first occurrence of the literal `p` in `s`: the least `i`
such that `p` is a prefix of `s.drop i`.  This is how the regex engine finds
a literal pattern. -/
def firstIdx (p : List Char) : List Char → Option Nat
  | [] => if p.isPrefixOf ([] : List Char) then some 0 else none
  | c :: t => if p.isPrefixOf (c :: t) then some 0 else (firstIdx p t).map (fun n => n + 1)

/-- One left-to-right pass of
`re.sub(re.escape(HOSTS_TAG_START) + r".*?" + re.escape(HOSTS_TAG_END), "", s, flags=re.DOTALL)`:
repeatedly find the leftmost start marker, the nearest end marker after it
(non-greedy `.*?`), delete that span, and continue after it.  The fuel
argument (instantiated with `s.length`, an upper bound on the number of
deleted spans) makes the recursion structural. -/
def stripMatchesF : Nat → List Char → List Char
  | 0, s => s
  | fuel + 1, s =>
    match firstIdx TAG_START s with
    | none => s
    | some i =>
      match firstIdx TAG_END (s.drop (i + TAG_START.length)) with
      | none => s
      | some j =>
        s.take i ++ stripMatchesF fuel ((s.drop (i + TAG_START.length)).drop (j + TAG_END.length))

/-- The regex deletion inside `strip_ultra_block_section`. -/
def stripMatches (s : List Char) : List Char := stripMatchesF s.length s

/-- `strip_ultra_block_section`: delete every tagged span, then
`cleaned.rstrip() + "\n"`. -/
def strip_ultra_block_section (s : List Char) : List Char :=
  rstrip (stripMatches s) ++ ['\n']

/-- The `www.` literal. -/
def wwwPfx : List Char := "www.".data

/-- Lowercasing of a Python string (`str.lower`, ASCII part). -/
def lowerStr (s : List Char) : List Char := s.map Char.toLower

/-- The scheme removal in `expand_domains`: when the (already lowercased)
string starts with `http://` or `https://`, `re.sub(r"^https?://", "", d)`
removes that leading scheme. -/
def descheme (d : List Char) : List Char :=
  if ("http://".data).isPrefixOf d then d.drop 7
  else if ("https://".data).isPrefixOf d then d.drop 8
  else d

/-- The per-domain canonicalization in the `expand_domains` loop:
`d = (d or "").strip().lower()`; skip when empty (`none`); otherwise drop a
leading scheme and keep the part before the first `/`. -/
def cleanup (d : List Char) : Option (List Char) :=
  if lowerStr (pyStrip d) = [] then none
  else some ((descheme (lowerStr (pyStrip d))).takeWhile (fun c => c ≠ '/'))

/-- The accumulation pass of `expand_domains`: for each input append its
canonical form, and additionally its `www.`-prefixed variant when the
canonical form does not already start with `www.`. -/
def expandCore : List (List Char) → List (List Char)
  | [] => []
  | d :: rest =>
    match cleanup d with
    | none => expandCore rest
    | some c =>
      (if wwwPfx.isPrefixOf c then [c] else [c, wwwPfx ++ c]) ++ expandCore rest

/-- The deduplication pass of `expand_domains`: keep each element on first
occurrence, tracking the already-seen elements. -/
def dedupSeen (seen : List (List Char)) : List (List Char) → List (List Char)
  | [] => []
  | x :: xs => if x ∈ seen then dedupSeen seen xs else x :: dedupSeen (x :: seen) xs

/-- `expand_domains`. -/
def expand_domains (l : List (List Char)) : List (List Char) :=
  dedupSeen [] (expandCore l)

/-- The two hosts lines generated per blocked domain:
`127.0.0.1 <d>` and `::1 <d>`. -/
def entryLines : List (List Char) → List (List Char)
  | [] => []
  | d :: rest => ("127.0.0.1 ".data ++ d) :: ("::1 ".data ++ d) :: entryLines rest

/-- Python `"\n".join(lines)`. -/
def joinLines : List (List Char) → List Char
  | [] => []
  | [x] => x
  | x :: y :: rest => x ++ '\n' :: joinLines (y :: rest)

/-- The tagged block written by `apply_hosts_block`:
`"\n".join([HOSTS_TAG_START] + entry lines + [HOSTS_TAG_END])`. -/
def blockText (ds : List (List Char)) : List Char :=
  joinLines (TAG_START :: (entryLines ds ++ [TAG_END]))

/-- The document produced by a successful `apply_hosts_block` from hosts
content `h`: `strip_ultra_block_section(h) + "\n" + block + "\n"`. -/
def applyDoc (domains : List (List Char)) (h : List Char) : List Char :=
  strip_ultra_block_section h ++ '\n' :: (blockText (expand_domains domains) ++ ['\n'])

/-- The document produced by a successful `clear_hosts_block` from hosts
content `h`. -/
def clearDoc (h : List Char) : List Char := strip_ultra_block_section h

/-- File-system state: the hosts document plus counters of performed reads
and writes of the hosts file. -/
structure FState where
  hosts : List Char
  readCount : Nat
  writeCount : Nat
deriving DecidableEq

/-- `read_hosts()`: returns the document and records one read. -/
def read_hosts (fs : FState) : List Char × FState :=
  (fs.hosts, ⟨fs.hosts, fs.readCount + 1, fs.writeCount⟩)

/-- `write_hosts(text)`: on success replaces the document and records one
write (returns `true`); a failing write returns `false`.  `writeOk` abstracts
whether the OS-level write succeeds. -/
def write_hosts (writeOk : Bool) (text : List Char) (fs : FState) : Bool × FState :=
  if writeOk then (true, ⟨text, fs.readCount, fs.writeCount + 1⟩) else (false, fs)

/-- `apply_hosts_block(domains)`.  `root` abstracts `require_root()`.  The
permission pre-check happens before any file access; on success the new
document is built from the stripped current content plus a fresh tagged
block.  (`flush_dns` touches no file state.) -/
def apply_hosts_block (root writeOk : Bool) (domains : List (List Char)) (fs : FState) :
    (Bool × Option String) × FState :=
  if root = false then ((false, some "permission"), fs)
  else
    let rh := read_hosts fs
    let newHosts := applyDoc domains rh.1
    let wr := write_hosts writeOk newHosts rh.2
    if wr.1 then ((true, none), wr.2) else ((false, some "write_failed"), wr.2)

/-- `clear_hosts_block()`. -/
def clear_hosts_block (root writeOk : Bool) (fs : FState) :
    (Bool × Option String) × FState :=
  if root = false then ((false, some "permission"), fs)
  else
    let rh := read_hosts fs
    let newHosts := clearDoc rh.1
    let wr := write_hosts writeOk newHosts rh.2
    if wr.1 then ((true, none), wr.2) else ((false, some "write_failed"), wr.2)

/-- `resolve_all(domain)`: the oracle argument is the outcome of
`socket.getaddrinfo` for the probed domain, `none` when it raises, otherwise
the list of `sockaddr[0]` addresses; the result is the sorted list of the
distinct collected addresses. -/
def resolve_all (res : Option (List String)) : List String :=
  match res with
  | none => []
  | some addrs => List.insertionSort (fun a b => a ≤ b) addrs.dedup

/-- Socket.IO connection identifier (`request.sid`). -/
abbrev Sid := Nat

/-- The room registry of the Socket.IO server: room id to member list. -/
structure RoomState where
  rooms : List (List Char × List Sid)
deriving DecidableEq

/-- Members of a room (empty for an unknown room). -/
def findRoom : List (List Char × List Sid) → List Char → List Sid
  | [], _ => []
  | (r, ms) :: rest, rid => if r = rid then ms else findRoom rest rid

/-- `members_in(room_id)`: the current member count. -/
def members_in (st : RoomState) (rid : List Char) : Nat := (findRoom st.rooms rid).length

/-- `join_room(room_id)` for a connection: set-insert into the room. -/
def joinRooms : List (List Char × List Sid) → List Char → Sid → List (List Char × List Sid)
  | [], rid, sid => [(rid, [sid])]
  | (r, ms) :: rest, rid, sid =>
    if r = rid then (r, if sid ∈ ms then ms else sid :: ms) :: rest
    else (r, ms) :: joinRooms rest rid sid

/-- `leave_room(room_id)` for a connection: set-removal from the room. -/
def leaveRooms : List (List Char × List Sid) → List Char → Sid → List (List Char × List Sid)
  | [], _, _ => []
  | (r, ms) :: rest, rid, sid =>
    if r = rid then (r, ms.filter (fun m => m ≠ sid)) :: rest
    else (r, ms) :: leaveRooms rest rid sid

def join_room (st : RoomState) (rid : List Char) (sid : Sid) : RoomState :=
  ⟨joinRooms st.rooms rid sid⟩

def leave_room (st : RoomState) (rid : List Char) (sid : Sid) : RoomState :=
  ⟨leaveRooms st.rooms rid sid⟩

/-- An incoming event payload: the `roomId` field (defaulted to `""` when
missing) plus the rest of the payload, which the server never inspects. -/
structure Payload (α : Type) where
  roomId : List Char
  body : α
deriving DecidableEq

/-- A message emitted to one connection: either a membership notification
(`room:joined` / `room:created` / `room:members` / `room:left` payloads) or a
verbatim relay of an incoming payload. -/
inductive Msg (α : Type) where
  | info (roomId : List Char) (members : Nat) : Msg α
  | relay (data : Payload α) : Msg α
deriving DecidableEq

/-- One delivery performed by `emit`: event name, target connection, message. -/
structure Emission (α : Type) where
  event : String
  target : Sid
  msg : Msg α
deriving DecidableEq

/-- `emit(event, msg, room=rid)`: deliver to every current member of `rid`. -/
def emitRoom (st : RoomState) (rid : List Char) (event : String) (msg : Msg α) :
    List (Emission α) :=
  (findRoom st.rooms rid).map (fun m => ⟨event, m, msg⟩)

/-- Handler acknowledgment returned to the emitting client. -/
inductive Ack where
  | err (msg : String) : Ack
  | ok (roomId : List Char) (members : Nat) : Ack
deriving DecidableEq

/-- `on_room_join`: reject an empty (after trim) room id with
`{ok: False, error: "missing roomId"}`; otherwise join, acknowledge and
notify the room. -/
def on_room_join (st : RoomState) (sender : Sid) (data : Payload α) :
    Ack × RoomState × List (Emission α) :=
  if pyStrip data.roomId = [] then (.err "missing roomId", st, [])
  else
    (.ok (pyStrip data.roomId)
        (members_in (join_room st (pyStrip data.roomId) sender) (pyStrip data.roomId)),
      join_room st (pyStrip data.roomId) sender,
      ⟨"room:joined", sender, .info (pyStrip data.roomId)
          (members_in (join_room st (pyStrip data.roomId) sender) (pyStrip data.roomId))⟩ ::
        emitRoom (join_room st (pyStrip data.roomId) sender) (pyStrip data.roomId)
          "room:members" (.info (pyStrip data.roomId)
            (members_in (join_room st (pyStrip data.roomId) sender) (pyStrip data.roomId))))

/-- `on_room_leave`. -/
def on_room_leave (st : RoomState) (sender : Sid) (data : Payload α) :
    Ack × RoomState × List (Emission α) :=
  if pyStrip data.roomId = [] then (.err "missing roomId", st, [])
  else
    (.ok (pyStrip data.roomId)
        (members_in (leave_room st (pyStrip data.roomId) sender) (pyStrip data.roomId)),
      leave_room st (pyStrip data.roomId) sender,
      emitRoom (leave_room st (pyStrip data.roomId) sender) (pyStrip data.roomId)
          "room:members" (.info (pyStrip data.roomId)
            (members_in (leave_room st (pyStrip data.roomId) sender) (pyStrip data.roomId))) ++
        [⟨"room:left", sender, .info (pyStrip data.roomId)
            (members_in (leave_room st (pyStrip data.roomId) sender) (pyStrip data.roomId))⟩])

/-- `on_timer_sync`: an empty (after trim) room id is silently discarded
(`None` acknowledgment, no emission); otherwise the payload is relayed
verbatim as `timer:state` to every room member except the sender
(`include_self=False`). -/
def on_timer_sync (st : RoomState) (sender : Sid) (data : Payload α) :
    Option Ack × List (Emission α) :=
  if pyStrip data.roomId = [] then (none, [])
  else
    (none, ((findRoom st.rooms (pyStrip data.roomId)).filter (fun m => m ≠ sender)).map
      (fun m => ⟨"timer:state", m, .relay data⟩))

/-- `on_timer_penalty`: same relay as `on_timer_sync`, event `timer:penalty`. -/
def on_timer_penalty (st : RoomState) (sender : Sid) (data : Payload α) :
    Option Ack × List (Emission α) :=
  if pyStrip data.roomId = [] then (none, [])
  else
    (none, ((findRoom st.rooms (pyStrip data.roomId)).filter (fun m => m ≠ sender)).map
      (fun m => ⟨"timer:penalty", m, .relay data⟩))

/-- Number of occurrences of the literal `p` in `s` (count of positions where
`p` is a prefix of the corresponding suffix). -/
def countOcc (p : List Char) : List Char → Nat
  | [] => 0
  | c :: t => (if p.isPrefixOf (c :: t) then 1 else 0) + countOcc p t

lemma pfxOf {p s : List Char} : p.isPrefixOf s = true ↔ p <+: s := by
  exact List.isPrefixOf_iff_prefix

lemma pfx_take {p s : List Char} (h : p <+: s) : p = s.take p.length := by
  exact List.prefix_iff_eq_take.mp h

lemma pfx_of_append_le {p a b : List Char} (h : p <+: a ++ b) (hl : p.length ≤ a.length) :
    p <+: a := by
  have h1 := pfx_take h
  rw [List.take_append_eq_append_take, Nat.sub_eq_zero_of_le hl, List.take_zero,
    List.append_nil] at h1
  exact h1 ▸ List.take_prefix _ _

lemma mem_of_append_pfx {p a : List Char} {z : Char} {b : List Char}
    (h : p <+: a ++ z :: b) (hl : a.length < p.length) : z ∈ p := by
  have h1 := pfx_take h
  rw [List.take_append_eq_append_take, List.take_of_length_le (Nat.le_of_lt hl)] at h1
  have h2 : p.length - a.length = (p.length - a.length - 1) + 1 := by omega
  rw [h2, List.take_succ_cons] at h1
  rw [h1]
  exact List.mem_append_right _ (List.mem_cons_self _ _)

lemma pfx_extend {p a : List Char} (b : List Char) (h : p.isPrefixOf a = true) :
    p.isPrefixOf (a ++ b) = true :=
  pfxOf.mpr ((pfxOf.mp h).trans (List.prefix_append a b))

lemma pfx_append_cons_iff {p a b : List Char} {z : Char} (hz : z ∉ p) :
    p.isPrefixOf (a ++ z :: b) = p.isPrefixOf a := by
  by_cases h1 : p.isPrefixOf a = true
  · rw [h1, pfx_extend _ h1]
  · rw [Bool.eq_false_iff.mpr h1]
    by_cases h2 : p.isPrefixOf (a ++ z :: b) = true
    · exfalso
      have hp := pfxOf.mp h2
      by_cases hl : p.length ≤ a.length
      · exact h1 (pfxOf.mpr (pfx_of_append_le hp hl))
      · exact hz (mem_of_append_pfx hp (by omega))
    · rw [Bool.eq_false_iff.mpr h2]

lemma not_pfx_nil {p : List Char} (hp : p ≠ []) : p.isPrefixOf ([] : List Char) = false := by
  cases p with
  | nil => exact absurd rfl hp
  | cons c t => rfl

lemma firstIdx_nil {p : List Char} (hp : p ≠ []) : firstIdx p [] = none := by
  simp [firstIdx, not_pfx_nil hp]

lemma firstIdx_cons (p : List Char) (c : Char) (t : List Char) :
    firstIdx p (c :: t) =
      if p.isPrefixOf (c :: t) then some 0 else (firstIdx p t).map (fun n => n + 1) := rfl

lemma countOcc_cons (p : List Char) (c : Char) (t : List Char) :
    countOcc p (c :: t) = (if p.isPrefixOf (c :: t) then 1 else 0) + countOcc p t := rfl

lemma not_pfx_of_countOcc {p : List Char} {c : Char} {t : List Char}
    (h : countOcc p (c :: t) = 0) : p.isPrefixOf (c :: t) = false ∧ countOcc p t = 0 := by
  rw [countOcc_cons] at h
  by_cases hp : p.isPrefixOf (c :: t) = true
  · rw [if_pos hp] at h; omega
  · rw [Bool.eq_false_iff.mpr hp] at h
    simp at h
    exact ⟨Bool.eq_false_iff.mpr hp, h⟩

lemma countOcc_append_cons {p : List Char} {z : Char} (hz : z ∉ p) (hp : p ≠ [])
    (a b : List Char) :
    countOcc p (a ++ z :: b) = countOcc p a + countOcc p b := by
  induction a with
  | nil =>
    have h0 : p.isPrefixOf (z :: b) = false := by
      have h1 := @pfx_append_cons_iff p [] b z hz
      rw [List.nil_append] at h1
      rw [h1, not_pfx_nil hp]
    simp [countOcc_cons, h0, countOcc]
  | cons c t ih =>
    have hstep : (c :: t) ++ z :: b = c :: (t ++ z :: b) := rfl
    rw [hstep, countOcc_cons, countOcc_cons]
    have hiff : p.isPrefixOf (c :: (t ++ z :: b)) = p.isPrefixOf (c :: t) := by
      have := @pfx_append_cons_iff p (c :: t) b z hz
      simpa using this
    rw [hiff, ih]
    omega

lemma firstIdx_append_cons {p : List Char} {z : Char} (hz : z ∉ p) (hp : p ≠ [])
    (a b : List Char) (ha : countOcc p a = 0) :
    firstIdx p (a ++ z :: b) = (firstIdx p b).map (fun n => n + (a.length + 1)) := by
  induction a with
  | nil =>
    have h0 : p.isPrefixOf (z :: b) = false := by
      have := @pfx_append_cons_iff p [] b z hz
      simpa [not_pfx_nil hp] using this
    rw [List.nil_append, firstIdx_cons, h0]
    simp
  | cons c t ih =>
    obtain ⟨hpf, ht⟩ := not_pfx_of_countOcc ha
    have hstep : (c :: t) ++ z :: b = c :: (t ++ z :: b) := rfl
    rw [hstep, firstIdx_cons]
    have hiff : p.isPrefixOf (c :: (t ++ z :: b)) = p.isPrefixOf (c :: t) := by
      have := @pfx_append_cons_iff p (c :: t) b z hz
      simpa using this
    rw [hiff, hpf, ih ht]
    cases firstIdx p b with
    | none => simp
    | some n =>
      simp [List.length_cons]
      omega

lemma firstIdx_self (p r : List Char) (hp : p ≠ []) : firstIdx p (p ++ r) = some 0 := by
  cases p with
  | nil => exact absurd rfl hp
  | cons c t =>
    have hpf : (c :: t).isPrefixOf ((c :: t) ++ r) = true :=
      pfx_extend r (pfxOf.mpr List.prefix_rfl)
    have hstep : (c :: t) ++ r = c :: (t ++ r) := rfl
    rw [hstep, firstIdx_cons, ← hstep, hpf]
    rfl

lemma pfx_length_le {p s : List Char} (h : p.isPrefixOf s = true) : p.length ≤ s.length :=
  (pfxOf.mp h).length_le

lemma firstIdx_short {p s : List Char} (h : s.length < p.length) : firstIdx p s = none := by
  induction s with
  | nil => exact firstIdx_nil (by intro he; subst he; simp at h)
  | cons c t ih =>
    rw [firstIdx_cons]
    have hpf : p.isPrefixOf (c :: t) = false := by
      by_cases hq : p.isPrefixOf (c :: t) = true
      · exact absurd (pfx_length_le hq) (by omega)
      · exact Bool.eq_false_iff.mpr hq
    rw [hpf]
    have := ih (by simp at h ⊢; omega)
    rw [this]
    rfl

lemma countOcc_short {p s : List Char} (h : s.length < p.length) : countOcc p s = 0 := by
  induction s with
  | nil => rfl
  | cons c t ih =>
    rw [countOcc_cons]
    have hpf : p.isPrefixOf (c :: t) = false := by
      by_cases hq : p.isPrefixOf (c :: t) = true
      · exact absurd (pfx_length_le hq) (by omega)
      · exact Bool.eq_false_iff.mpr hq
    rw [hpf, ih (by simp at h ⊢; omega)]
    rfl

lemma countOcc_self {p : List Char} (hp : p ≠ []) : countOcc p p = 1 := by
  cases p with
  | nil => exact absurd rfl hp
  | cons c t =>
    rw [countOcc_cons]
    have hpf : (c :: t).isPrefixOf (c :: t) = true := pfxOf.mpr List.prefix_rfl
    rw [hpf, countOcc_short (by simp)]
    simp

lemma countOcc_zero_of_not_mem {x : Char} {p s : List Char} (hx : x ∈ p) (hs : x ∉ s) :
    countOcc p s = 0 := by
  induction s with
  | nil => rfl
  | cons c t ih =>
    rw [countOcc_cons]
    have hpf : p.isPrefixOf (c :: t) = false := by
      by_cases hq : p.isPrefixOf (c :: t) = true
      · exact absurd ((pfxOf.mp hq).subset hx) hs
      · exact Bool.eq_false_iff.mpr hq
    rw [hpf, ih (fun hm => hs (List.mem_cons_of_mem c hm))]
    rfl

lemma firstIdx_none_of_countOcc {p s : List Char} (hp : p ≠ []) (h : countOcc p s = 0) :
    firstIdx p s = none := by
  induction s with
  | nil => exact firstIdx_nil hp
  | cons c t ih =>
    obtain ⟨hpf, ht⟩ := not_pfx_of_countOcc h
    rw [firstIdx_cons, hpf, ih ht]
    rfl

lemma dropWhile_append_all {pr : Char → Bool} {xs : List Char}
    (h : ∀ x ∈ xs, pr x = true) (ys : List Char) :
    (xs ++ ys).dropWhile pr = ys.dropWhile pr := by
  induction xs with
  | nil => rfl
  | cons x rest ih =>
    rw [List.cons_append, List.dropWhile_cons, h x (List.mem_cons_self _ _)]
    exact ih (fun y hy => h y (List.mem_cons_of_mem _ hy))

lemma dropWhile_self_idem (pr : Char → Bool) (l : List Char) :
    (l.dropWhile pr).dropWhile pr = l.dropWhile pr := by
  induction l with
  | nil => rfl
  | cons c t ih =>
    rw [List.dropWhile_cons]
    by_cases hc : pr c = true
    · rw [if_pos hc]; exact ih
    · rw [if_neg hc, List.dropWhile_cons, if_neg hc]

lemma rstrip_append_ws {b : List Char} (hb : ∀ c ∈ b, pyIsSpace c = true) (a : List Char) :
    rstrip (a ++ b) = rstrip a := by
  unfold rstrip
  rw [List.reverse_append, dropWhile_append_all]
  intro x hx
  exact hb x (List.mem_reverse.mp hx)

lemma rstrip_idem (s : List Char) : rstrip (rstrip s) = rstrip s := by
  unfold rstrip
  rw [List.reverse_reverse, dropWhile_self_idem]

lemma firstIdx_bound {p s : List Char} {i : Nat} (h : firstIdx p s = some i) :
    i + p.length ≤ s.length := by
  induction s generalizing i with
  | nil =>
    by_cases hp : p = []
    · subst hp
      simp [firstIdx, List.isPrefixOf] at h
      omega
    · rw [firstIdx_nil hp] at h; cases h
  | cons c t ih =>
    rw [firstIdx_cons] at h
    by_cases hpf : p.isPrefixOf (c :: t) = true
    · rw [if_pos hpf] at h
      cases h
      simpa using pfx_length_le hpf
    · rw [Bool.eq_false_iff.mpr hpf] at h
      simp at h
      obtain ⟨j, hj, rfl⟩ := h
      have := ih hj
      simp
      omega

lemma tagStart_ne_nil : TAG_START ≠ [] := by decide

lemma tagEnd_ne_nil : TAG_END ≠ [] := by decide

lemma tagStart_len : TAG_START.length = 36 := by decide

lemma tagEnd_len : TAG_END.length = 34 := by decide

lemma newline_not_mem_tagStart : '\n' ∉ TAG_START := by decide

lemma newline_not_mem_tagEnd : '\n' ∉ TAG_END := by decide

lemma upperU_mem_tagStart : 'U' ∈ TAG_START := by decide

lemma upperU_mem_tagEnd : 'U' ∈ TAG_END := by decide

lemma stripMatchesF_irrel :
    ∀ (f1 : Nat) (f2 : Nat) (s : List Char), s.length ≤ f1 → s.length ≤ f2 →
      stripMatchesF f1 s = stripMatchesF f2 s := by
  intro f1
  induction f1 with
  | zero =>
    intro f2 s h1 _
    have hs : s = [] := List.length_eq_zero.mp (Nat.le_zero.mp h1)
    subst hs
    cases f2 with
    | zero => rfl
    | succ k => simp [stripMatchesF, firstIdx_nil tagStart_ne_nil]
  | succ k ih =>
    intro f2 s h1 h2
    cases f2 with
    | zero =>
      have hs : s = [] := List.length_eq_zero.mp (Nat.le_zero.mp h2)
      subst hs
      simp [stripMatchesF, firstIdx_nil tagStart_ne_nil]
    | succ m =>
      simp only [stripMatchesF]
      cases hI : firstIdx TAG_START s with
      | none => rfl
      | some i =>
        cases hJ : firstIdx TAG_END (s.drop (i + TAG_START.length)) with
        | none => simp only [hJ]
        | some j =>
          simp only [hJ]
          have hb1 := firstIdx_bound hI
          have hb2 := firstIdx_bound hJ
          rw [List.length_drop] at hb2
          have hS := tagStart_len
          have hE := tagEnd_len
          congr 1
          apply ih m
          · rw [List.length_drop, List.length_drop]; omega
          · rw [List.length_drop, List.length_drop]; omega

lemma stripMatches_none {s : List Char} (h : firstIdx TAG_START s = none) :
    stripMatches s = s := by
  unfold stripMatches
  cases s with
  | nil => rfl
  | cons c t => simp [stripMatchesF, h]

lemma stripMatches_noEnd {s : List Char} {i : Nat} (h1 : firstIdx TAG_START s = some i)
    (h2 : firstIdx TAG_END (s.drop (i + TAG_START.length)) = none) :
    stripMatches s = s := by
  unfold stripMatches
  cases s with
  | nil => rw [firstIdx_nil tagStart_ne_nil] at h1; cases h1
  | cons c t => simp [stripMatchesF, h1, h2]

lemma stripMatches_step {s : List Char} {i j : Nat} (h1 : firstIdx TAG_START s = some i)
    (h2 : firstIdx TAG_END (s.drop (i + TAG_START.length)) = some j) :
    stripMatches s =
      s.take i ++ stripMatches ((s.drop (i + TAG_START.length)).drop (j + TAG_END.length)) := by
  have hb1 := firstIdx_bound h1
  have hb2 := firstIdx_bound h2
  rw [List.length_drop] at hb2
  have hS := tagStart_len
  have hE := tagEnd_len
  cases s with
  | nil => rw [firstIdx_nil tagStart_ne_nil] at h1; cases h1
  | cons c t =>
    show stripMatchesF (c :: t).length (c :: t) = _
    rw [List.length_cons]
    simp only [stripMatchesF, h1, h2]
    congr 1
    unfold stripMatches
    apply stripMatchesF_irrel
    · rw [List.length_drop, List.length_drop]
      simp at hb1 hb2 ⊢
      omega
    · exact Nat.le_refl _

/-- The part of the tagged block after the start marker and its newline. -/
def tailBlock (ds : List (List Char)) : List Char :=
  joinLines (entryLines ds ++ [TAG_END])

lemma joinLines_append_end :
    ∀ (xs : List (List Char)) (y : List Char), xs ≠ [] →
      joinLines (xs ++ [y]) = joinLines xs ++ '\n' :: y := by
  intro xs
  induction xs with
  | nil => intro y h; exact absurd rfl h
  | cons x rest ih =>
    intro y _
    cases rest with
    | nil => rfl
    | cons r2 rest' =>
      have h1 : (x :: r2 :: rest') ++ [y] = x :: ((r2 :: rest') ++ [y]) := rfl
      rw [h1]
      have h2 : joinLines (x :: ((r2 :: rest') ++ [y]))
          = x ++ '\n' :: joinLines ((r2 :: rest') ++ [y]) := rfl
      have h3 : joinLines (x :: r2 :: rest') = x ++ '\n' :: joinLines (r2 :: rest') := rfl
      rw [h2, ih y (by simp), h3]
      simp

lemma blockText_eq (ds : List (List Char)) :
    blockText ds = TAG_START ++ '\n' :: tailBlock ds := by
  unfold blockText tailBlock
  cases h : entryLines ds ++ [TAG_END] with
  | nil => simp at h
  | cons a rest => rfl

lemma toLower_ne_U (c : Char) : Char.toLower c ≠ 'U' := by
  unfold Char.toLower
  by_cases h : c.toNat ≥ 65 ∧ c.toNat ≤ 90
  · simp only [if_pos h]
    intro hc
    have hv : (c.toNat + 32).isValidChar := Or.inl (by omega)
    have h2 : (Char.ofNat (c.toNat + 32)).toNat = c.toNat + 32 := by
      rw [Char.ofNat, dif_pos hv]; exact rfl
    have h3 : ('U' : Char).toNat = 85 := by decide
    rw [hc, h3] at h2
    omega
  · simp only [if_neg h]
    intro hc
    subst hc
    exact h (by decide)

lemma descheme_subset (s : List Char) : descheme s ⊆ s := by
  unfold descheme
  by_cases h1 : ("http://".data).isPrefixOf s = true
  · rw [if_pos h1]; exact List.drop_subset _ s
  · rw [if_neg h1]
    by_cases h2 : ("https://".data).isPrefixOf s = true
    · rw [if_pos h2]; exact List.drop_subset _ s
    · rw [if_neg h2]; exact fun _ h => h

lemma noU_cleanup {d c : List Char} (h : cleanup d = some c) : 'U' ∉ c := by
  unfold cleanup at h
  by_cases he : lowerStr (pyStrip d) = []
  · rw [if_pos he] at h; cases h
  · rw [if_neg he] at h
    have hc : c = (descheme (lowerStr (pyStrip d))).takeWhile (fun c => c ≠ '/') :=
      (Option.some_injective _ h).symm
    intro hU
    rw [hc] at hU
    have h1 : 'U' ∈ descheme (lowerStr (pyStrip d)) :=
      (List.takeWhile_prefix _).subset hU
    have h2 : 'U' ∈ lowerStr (pyStrip d) := descheme_subset _ h1
    unfold lowerStr at h2
    obtain ⟨c', _, hc'⟩ := List.mem_map.mp h2
    exact toLower_ne_U c' hc'

lemma mem_dedupSeen {x : List Char} :
    ∀ {xs seen : List (List Char)}, x ∈ dedupSeen seen xs → x ∈ xs := by
  intro xs
  induction xs with
  | nil => intro seen h; simp [dedupSeen] at h
  | cons y ys ih =>
    intro seen h
    rw [dedupSeen] at h
    by_cases hy : y ∈ seen
    · rw [if_pos hy] at h
      exact List.mem_cons_of_mem _ (ih h)
    · rw [if_neg hy] at h
      rcases List.mem_cons.mp h with h1 | h1
      · exact h1 ▸ List.mem_cons_self _ _
      · exact List.mem_cons_of_mem _ (ih h1)

lemma mem_expandCore {x : List Char} :
    ∀ {l : List (List Char)}, x ∈ expandCore l →
      ∃ d ∈ l, ∃ c, cleanup d = some c ∧ (x = c ∨ x = wwwPfx ++ c) := by
  intro l
  induction l with
  | nil => intro h; simp [expandCore] at h
  | cons d0 rest ih =>
    intro h
    rw [expandCore] at h
    cases hc : cleanup d0 with
    | none =>
      rw [hc] at h
      obtain ⟨d, hd, hrest⟩ := ih h
      exact ⟨d, List.mem_cons_of_mem _ hd, hrest⟩
    | some c =>
      rw [hc] at h
      rcases List.mem_append.mp h with h1 | h1
      · by_cases hw : wwwPfx.isPrefixOf c = true
        · rw [if_pos hw] at h1
          simp at h1
          exact ⟨d0, List.mem_cons_self _ _, c, hc, Or.inl h1⟩
        · rw [if_neg hw] at h1
          rcases List.mem_cons.mp h1 with h2 | h2
          · exact ⟨d0, List.mem_cons_self _ _, c, hc, Or.inl h2⟩
          · simp at h2
            exact ⟨d0, List.mem_cons_self _ _, c, hc, Or.inr h2⟩
      · obtain ⟨d, hd, hrest⟩ := ih h1
        exact ⟨d, List.mem_cons_of_mem _ hd, hrest⟩

lemma noU_expand {x : List Char} {ds : List (List Char)}
    (h : x ∈ expand_domains ds) : 'U' ∉ x := by
  obtain ⟨d, _, c, hc, hx⟩ := mem_expandCore (mem_dedupSeen h)
  have hcU := noU_cleanup hc
  rcases hx with rfl | rfl
  · exact hcU
  · intro hU
    rcases List.mem_append.mp hU with h1 | h1
    · exact absurd h1 (by decide)
    · exact hcU h1

lemma mem_joinLines {c : Char} :
    ∀ {xs : List (List Char)}, c ∈ joinLines xs → c = '\n' ∨ ∃ x ∈ xs, c ∈ x := by
  intro xs
  induction xs with
  | nil => intro h; simp [joinLines] at h
  | cons x rest ih =>
    intro h
    cases rest with
    | nil => exact Or.inr ⟨x, List.mem_cons_self _ _, h⟩
    | cons y rest' =>
      have h1 : joinLines (x :: y :: rest') = x ++ '\n' :: joinLines (y :: rest') := rfl
      rw [h1] at h
      rcases List.mem_append.mp h with h2 | h2
      · exact Or.inr ⟨x, List.mem_cons_self _ _, h2⟩
      · rcases List.mem_cons.mp h2 with h3 | h3
        · exact Or.inl h3
        · rcases ih h3 with h4 | ⟨z, hz, hcz⟩
          · exact Or.inl h4
          · exact Or.inr ⟨z, List.mem_cons_of_mem _ hz, hcz⟩

lemma mem_entryLines {x : List Char} :
    ∀ {ds : List (List Char)}, x ∈ entryLines ds →
      ∃ d ∈ ds, x = "127.0.0.1 ".data ++ d ∨ x = "::1 ".data ++ d := by
  intro ds
  induction ds with
  | nil => intro h; simp [entryLines] at h
  | cons d rest ih =>
    intro h
    rw [entryLines] at h
    rcases List.mem_cons.mp h with h1 | h1
    · exact ⟨d, List.mem_cons_self _ _, Or.inl h1⟩
    · rcases List.mem_cons.mp h1 with h2 | h2
      · exact ⟨d, List.mem_cons_self _ _, Or.inr h2⟩
      · obtain ⟨d', hd', hx⟩ := ih h2
        exact ⟨d', List.mem_cons_of_mem _ hd', hx⟩

lemma noU_entries (ds : List (List Char)) :
    'U' ∉ joinLines (entryLines (expand_domains ds)) := by
  intro hc
  rcases mem_joinLines hc with h | ⟨x, hx, hcx⟩
  · exact absurd h (by decide)
  · obtain ⟨d, hd, hx2⟩ := mem_entryLines hx
    have hdU := noU_expand hd
    rcases hx2 with rfl | rfl
    · rcases List.mem_append.mp hcx with h1 | h1
      · exact absurd h1 (by decide)
      · exact hdU h1
    · rcases List.mem_append.mp hcx with h1 | h1
      · exact absurd h1 (by decide)
      · exact hdU h1

lemma tailBlock_nil {ds : List (List Char)} (h : entryLines ds = []) :
    tailBlock ds = TAG_END := by
  unfold tailBlock
  rw [h]
  rfl

lemma tailBlock_cons {ds : List (List Char)} {e : List Char} {es : List (List Char)}
    (h : entryLines ds = e :: es) :
    tailBlock ds = joinLines (e :: es) ++ '\n' :: TAG_END := by
  unfold tailBlock
  rw [h]
  exact joinLines_append_end _ _ (by simp)

lemma tail_firstE (ds : List (List Char)) (hU : 'U' ∉ joinLines (entryLines ds)) :
    ∃ j, firstIdx TAG_END ('\n' :: (tailBlock ds ++ ['\n'])) = some j ∧
      ('\n' :: (tailBlock ds ++ ['\n'])).drop (j + TAG_END.length) = ['\n'] := by
  cases hEL : entryLines ds with
  | nil =>
    rw [tailBlock_nil hEL]
    refine ⟨1, ?_, ?_⟩
    · have h1 : ('\n' :: (TAG_END ++ ['\n'])) = [] ++ '\n' :: (TAG_END ++ ['\n']) := rfl
      rw [h1, firstIdx_append_cons newline_not_mem_tagEnd tagEnd_ne_nil [] _ rfl,
        firstIdx_self _ _ tagEnd_ne_nil]
      rfl
    · have h2 : '\n' :: (TAG_END ++ ['\n']) = ('\n' :: TAG_END) ++ ['\n'] := by simp
      rw [h2]
      apply List.drop_left'
      simp only [List.length_cons, tagEnd_len]
  | cons e es =>
    rw [tailBlock_cons hEL]
    rw [hEL] at hU
    refine ⟨(joinLines (e :: es)).length + 2, ?_, ?_⟩
    · have h1 : '\n' :: ((joinLines (e :: es) ++ '\n' :: TAG_END) ++ ['\n'])
          = ('\n' :: joinLines (e :: es)) ++ '\n' :: (TAG_END ++ ['\n']) := by simp
      rw [h1]
      have hc : countOcc TAG_END ('\n' :: joinLines (e :: es)) = 0 := by
        apply countOcc_zero_of_not_mem upperU_mem_tagEnd
        intro hm
        rcases List.mem_cons.mp hm with h2 | h2
        · exact absurd h2 (by decide)
        · exact hU h2
      rw [firstIdx_append_cons newline_not_mem_tagEnd tagEnd_ne_nil _ _ hc,
        firstIdx_self _ _ tagEnd_ne_nil]
      simp only [Option.map_some', List.length_cons]
      congr 1
      omega
    · have h2 : '\n' :: ((joinLines (e :: es) ++ '\n' :: TAG_END) ++ ['\n'])
          = (('\n' :: joinLines (e :: es)) ++ '\n' :: TAG_END) ++ ['\n'] := by simp
      rw [h2]
      apply List.drop_left'
      simp only [List.length_append, List.length_cons, tagEnd_len]

lemma stripMatches_shape (pre : List Char) (ds : List (List Char))
    (hpre : countOcc TAG_START pre = 0)
    (hU : 'U' ∉ joinLines (entryLines ds)) :
    stripMatches (pre ++ '\n' :: (blockText ds ++ ['\n'])) = pre ++ ['\n', '\n'] := by
  have hblock : blockText ds ++ ['\n'] = TAG_START ++ '\n' :: (tailBlock ds ++ ['\n']) := by
    rw [blockText_eq]
    simp
  rw [hblock]
  obtain ⟨j, hj, hdropj⟩ := tail_firstE ds hU
  have hfS : firstIdx TAG_START
        (pre ++ '\n' :: (TAG_START ++ '\n' :: (tailBlock ds ++ ['\n'])))
      = some (pre.length + 1) := by
    rw [firstIdx_append_cons newline_not_mem_tagStart tagStart_ne_nil pre _ hpre,
      firstIdx_self _ _ tagStart_ne_nil]
    simp
  have hdrop1 : (pre ++ '\n' :: (TAG_START ++ '\n' :: (tailBlock ds ++ ['\n']))).drop
      ((pre.length + 1) + TAG_START.length) = '\n' :: (tailBlock ds ++ ['\n']) := by
    have hgrp : pre ++ '\n' :: (TAG_START ++ '\n' :: (tailBlock ds ++ ['\n']))
        = ((pre ++ ['\n']) ++ TAG_START) ++ ('\n' :: (tailBlock ds ++ ['\n'])) := by simp
    rw [hgrp]
    apply List.drop_left'
    simp only [List.length_append, List.length_cons, List.length_nil]
  rw [stripMatches_step hfS (by rw [hdrop1]; exact hj), hdrop1, hdropj]
  have htake : (pre ++ '\n' :: (TAG_START ++ '\n' :: (tailBlock ds ++ ['\n']))).take
      (pre.length + 1) = pre ++ ['\n'] := by
    have hgrp : pre ++ '\n' :: (TAG_START ++ '\n' :: (tailBlock ds ++ ['\n']))
        = (pre ++ ['\n']) ++ (TAG_START ++ '\n' :: (tailBlock ds ++ ['\n'])) := by simp
    rw [hgrp]
    apply List.take_left'
    simp
  rw [htake, stripMatches_none (firstIdx_short (by rw [tagStart_len]; simp))]
  simp

lemma strip_shape (pre : List Char) (ds : List (List Char))
    (hpre : countOcc TAG_START pre = 0) (hU : 'U' ∉ joinLines (entryLines ds)) :
    strip_ultra_block_section (pre ++ '\n' :: (blockText ds ++ ['\n']))
      = rstrip pre ++ ['\n'] := by
  unfold strip_ultra_block_section
  rw [stripMatches_shape pre ds hpre hU, rstrip_append_ws (by decide) pre]

lemma strip_strip_eq (h : List Char) :
    rstrip (strip_ultra_block_section h) = rstrip (stripMatches h) := by
  unfold strip_ultra_block_section
  rw [rstrip_append_ws (by decide), rstrip_idem]

lemma strip_applyDoc (domains : List (List Char)) (h : List Char)
    (hpre : countOcc TAG_START (strip_ultra_block_section h) = 0) :
    strip_ultra_block_section (applyDoc domains h) = strip_ultra_block_section h := by
  unfold applyDoc
  rw [strip_shape _ _ hpre (noU_entries domains), strip_strip_eq]
  rfl

lemma countOcc_block_S (ds : List (List Char))
    (hU : 'U' ∉ joinLines (entryLines ds)) :
    countOcc TAG_START (blockText ds ++ ['\n']) = 1 := by
  rw [blockText_eq]
  have h1 : (TAG_START ++ '\n' :: tailBlock ds) ++ ['\n']
      = TAG_START ++ '\n' :: (tailBlock ds ++ ['\n']) := by simp
  rw [h1, countOcc_append_cons newline_not_mem_tagStart tagStart_ne_nil,
    countOcc_self tagStart_ne_nil]
  cases hEL : entryLines ds with
  | nil =>
    rw [tailBlock_nil hEL, countOcc_short (by
      simp only [List.length_append, List.length_cons, List.length_nil, tagEnd_len,
        tagStart_len]
      omega)]
  | cons e es =>
    rw [tailBlock_cons hEL]
    rw [hEL] at hU
    have h2 : (joinLines (e :: es) ++ '\n' :: TAG_END) ++ ['\n']
        = joinLines (e :: es) ++ '\n' :: (TAG_END ++ ['\n']) := by simp
    rw [h2, countOcc_append_cons newline_not_mem_tagStart tagStart_ne_nil,
      countOcc_zero_of_not_mem upperU_mem_tagStart hU,
      countOcc_short (by
        simp only [List.length_append, List.length_cons, List.length_nil, tagEnd_len,
          tagStart_len]
        omega)]

lemma countOcc_block_E (ds : List (List Char))
    (hU : 'U' ∉ joinLines (entryLines ds)) :
    countOcc TAG_END (blockText ds ++ ['\n']) = 1 := by
  rw [blockText_eq]
  have h1 : (TAG_START ++ '\n' :: tailBlock ds) ++ ['\n']
      = TAG_START ++ '\n' :: (tailBlock ds ++ ['\n']) := by simp
  rw [h1, countOcc_append_cons newline_not_mem_tagEnd tagEnd_ne_nil]
  have hES : countOcc TAG_END TAG_START = 0 := by decide
  have hEE : countOcc TAG_END (TAG_END ++ ['\n']) = 1 := by
    have h2 : TAG_END ++ ['\n'] = TAG_END ++ '\n' :: ([] : List Char) := rfl
    rw [h2, countOcc_append_cons newline_not_mem_tagEnd tagEnd_ne_nil,
      countOcc_self tagEnd_ne_nil]
    rfl
  cases hEL : entryLines ds with
  | nil => rw [tailBlock_nil hEL, hES, hEE]
  | cons e es =>
    rw [tailBlock_cons hEL]
    rw [hEL] at hU
    have h2 : (joinLines (e :: es) ++ '\n' :: TAG_END) ++ ['\n']
        = joinLines (e :: es) ++ '\n' :: (TAG_END ++ ['\n']) := by simp
    rw [h2, countOcc_append_cons newline_not_mem_tagEnd tagEnd_ne_nil,
      countOcc_zero_of_not_mem upperU_mem_tagEnd hU, hES, hEE]

lemma countOcc_applyDoc_S (domains : List (List Char)) (h : List Char)
    (hS : countOcc TAG_START (strip_ultra_block_section h) = 0) :
    countOcc TAG_START (applyDoc domains h) = 1 := by
  unfold applyDoc
  rw [countOcc_append_cons newline_not_mem_tagStart tagStart_ne_nil, hS,
    countOcc_block_S _ (noU_entries domains)]

lemma countOcc_applyDoc_E (domains : List (List Char)) (h : List Char)
    (hE : countOcc TAG_END (strip_ultra_block_section h) = 0) :
    countOcc TAG_END (applyDoc domains h) = 1 := by
  unfold applyDoc
  rw [countOcc_append_cons newline_not_mem_tagEnd tagEnd_ne_nil, hE,
    countOcc_block_E _ (noU_entries domains)]

lemma stripMatches_id_of_noStart {s : List Char} (h : countOcc TAG_START s = 0) :
    stripMatches s = s :=
  stripMatches_none (firstIdx_none_of_countOcc tagStart_ne_nil h)

lemma expandCore_cons_none {d0 : List Char} {rest : List (List Char)}
    (h : cleanup d0 = none) : expandCore (d0 :: rest) = expandCore rest := by
  simp [expandCore, h]

lemma expandCore_cons_some {d0 c0 : List Char} {rest : List (List Char)}
    (h : cleanup d0 = some c0) :
    expandCore (d0 :: rest)
      = (if wwwPfx.isPrefixOf c0 then [c0] else [c0, wwwPfx ++ c0]) ++ expandCore rest := by
  simp [expandCore, h]

lemma dedupSeen_cons_mem {x : List Char} {seen xs : List (List Char)} (h : x ∈ seen) :
    dedupSeen seen (x :: xs) = dedupSeen seen xs := by
  simp [dedupSeen, h]

lemma dedupSeen_cons_not {x : List Char} {seen xs : List (List Char)} (h : x ∉ seen) :
    dedupSeen seen (x :: xs) = x :: dedupSeen (x :: seen) xs := by
  simp [dedupSeen, h]

lemma dedupSeen_disjoint :
    ∀ (xs seen : List (List Char)) (y : List Char), y ∈ dedupSeen seen xs → y ∉ seen := by
  intro xs
  induction xs with
  | nil => intro seen y h; simp [dedupSeen] at h
  | cons x rest ih =>
    intro seen y h
    by_cases hx : x ∈ seen
    · rw [dedupSeen_cons_mem hx] at h
      exact ih seen y h
    · rw [dedupSeen_cons_not hx] at h
      rcases List.mem_cons.mp h with h1 | h1
      · exact h1 ▸ hx
      · intro hy
        exact ih (x :: seen) y h1 (List.mem_cons_of_mem _ hy)

lemma dedupSeen_nodup : ∀ (xs seen : List (List Char)), (dedupSeen seen xs).Nodup := by
  intro xs
  induction xs with
  | nil => intro seen; simp [dedupSeen]
  | cons x rest ih =>
    intro seen
    by_cases hx : x ∈ seen
    · rw [dedupSeen_cons_mem hx]; exact ih seen
    · rw [dedupSeen_cons_not hx]
      refine List.nodup_cons.mpr ⟨?_, ih (x :: seen)⟩
      intro hmem
      exact dedupSeen_disjoint rest (x :: seen) x hmem (List.mem_cons_self _ _)

lemma nodup_expand (l : List (List Char)) : (expand_domains l).Nodup :=
  dedupSeen_nodup _ _

lemma www_pfx_append (c : List Char) : wwwPfx.isPrefixOf (wwwPfx ++ c) = true :=
  pfx_extend c (pfxOf.mpr List.prefix_rfl)

lemma www_ne_of_not_pfx {c : List Char} (h : wwwPfx.isPrefixOf c = false) (y : List Char) :
    wwwPfx ++ y ≠ c := by
  intro he
  rw [← he, www_pfx_append] at h
  cases h

lemma www_inj {a b : List Char} (h : wwwPfx ++ a = wwwPfx ++ b) : a = b :=
  List.append_cancel_left h

lemma peel_cons {x z : List Char} {L M a : List (List Char)}
    (h : x :: L = a ++ z :: M) (hne : z ≠ x) : ∃ a2, a = x :: a2 ∧ L = a2 ++ z :: M := by
  cases a with
  | nil =>
    rw [List.nil_append] at h
    exact absurd (List.head_eq_of_cons_eq h).symm hne
  | cons w a2 =>
    rw [List.cons_append] at h
    exact ⟨a2, by rw [List.head_eq_of_cons_eq h], List.tail_eq_of_cons_eq h⟩

lemma dedup_pair_sublist :
    ∀ (l seen : List (List Char)),
      (∀ x, wwwPfx ++ x ∈ seen → x ∈ seen) →
      (∀ d ∈ l, ∀ c, cleanup d = some c → wwwPfx.isPrefixOf c = false) →
      ∀ d ∈ l, ∀ c, cleanup d = some c → c ∉ seen →
        List.Sublist [c, wwwPfx ++ c] (dedupSeen seen (expandCore l)) := by
  intro l
  induction l with
  | nil => intro seen _ _ d hd; simp at hd
  | cons d0 rest ih =>
    intro seen hJ hyp d hd c hc hcseen
    have hyp' : ∀ d ∈ rest, ∀ c, cleanup d = some c → wwwPfx.isPrefixOf c = false :=
      fun d hd c hc => hyp d (List.mem_cons_of_mem _ hd) c hc
    cases hc0 : cleanup d0 with
    | none =>
      rw [expandCore_cons_none hc0]
      rcases List.mem_cons.mp hd with rfl | hd'
      · rw [hc0] at hc; cases hc
      · exact ih seen hJ hyp' d hd' c hc hcseen
    | some c0 =>
      have hw0 : wwwPfx.isPrefixOf c0 = false := hyp d0 (List.mem_cons_self _ _) c0 hc0
      have hite : (if wwwPfx.isPrefixOf c0 then [c0] else [c0, wwwPfx ++ c0])
          = [c0, wwwPfx ++ c0] := by rw [hw0]; rfl
      rw [expandCore_cons_some hc0, hite, List.cons_append, List.cons_append,
        List.nil_append]
      have hcw : wwwPfx.isPrefixOf c = false := hyp d hd c hc
      by_cases hc0seen : c0 ∈ seen
      · by_cases hw0seen : wwwPfx ++ c0 ∈ seen
        · rw [dedupSeen_cons_mem hc0seen, dedupSeen_cons_mem hw0seen]
          rcases List.mem_cons.mp hd with rfl | hd'
          · rw [hc0] at hc
            cases hc
            exact absurd hc0seen hcseen
          · exact ih seen hJ hyp' d hd' c hc hcseen
        · rw [dedupSeen_cons_mem hc0seen, dedupSeen_cons_not hw0seen]
          rcases List.mem_cons.mp hd with rfl | hd'
          · rw [hc0] at hc
            cases hc
            exact absurd hc0seen hcseen
          · have hJ2 : ∀ x, wwwPfx ++ x ∈ (wwwPfx ++ c0) :: seen →
                x ∈ (wwwPfx ++ c0) :: seen := by
              intro x hx
              rcases List.mem_cons.mp hx with h1 | h1
              · rw [www_inj h1]
                exact List.mem_cons_of_mem _ hc0seen
              · exact List.mem_cons_of_mem _ (hJ x h1)
            have hcs2 : c ∉ (wwwPfx ++ c0) :: seen := by
              intro hx
              rcases List.mem_cons.mp hx with h1 | h1
              · exact www_ne_of_not_pfx hcw c0 h1.symm
              · exact hcseen h1
            exact (ih _ hJ2 hyp' d hd' c hc hcs2).cons _
      · have hw0seen : wwwPfx ++ c0 ∉ seen := fun hw => hc0seen (hJ c0 hw)
        rw [dedupSeen_cons_not hc0seen]
        have hw0s2 : wwwPfx ++ c0 ∉ c0 :: seen := by
          intro hx
          rcases List.mem_cons.mp hx with h1 | h1
          · exact www_ne_of_not_pfx hw0 c0 h1
          · exact hw0seen h1
        rw [dedupSeen_cons_not hw0s2]
        by_cases hcc0 : c = c0
        · subst hcc0
          exact List.Sublist.cons₂ _ (List.Sublist.cons₂ _ (List.nil_sublist _))
        · rcases List.mem_cons.mp hd with rfl | hd'
          · rw [hc0] at hc
            cases hc
            exact absurd rfl hcc0
          · have hJ3 : ∀ x, wwwPfx ++ x ∈ (wwwPfx ++ c0) :: c0 :: seen →
                x ∈ (wwwPfx ++ c0) :: c0 :: seen := by
              intro x hx
              rcases List.mem_cons.mp hx with h1 | h1
              · rw [www_inj h1]
                exact List.mem_cons_of_mem _ (List.mem_cons_self _ _)
              · rcases List.mem_cons.mp h1 with h2 | h2
                · exact absurd (h2 ▸ www_pfx_append x) (by rw [hw0]; simp)
                · exact List.mem_cons_of_mem _ (List.mem_cons_of_mem _ (hJ x h2))
            have hcs3 : c ∉ (wwwPfx ++ c0) :: c0 :: seen := by
              intro hx
              rcases List.mem_cons.mp hx with h1 | h1
              · exact www_ne_of_not_pfx hcw c0 h1.symm
              · rcases List.mem_cons.mp h1 with h2 | h2
                · exact hcc0 h2
                · exact hcseen h2
            exact ((ih _ hJ3 hyp' d hd' c hc hcs3).cons _).cons _

lemma ord_out :
    ∀ (l seen : List (List Char)) (x : List Char),
      x ∈ dedupSeen seen (expandCore l) → wwwPfx.isPrefixOf x = false →
      (∃ a b, dedupSeen seen (expandCore l) = a ++ x :: (wwwPfx ++ x) :: b) ∨
      (∃ a b, dedupSeen seen (expandCore l) = a ++ (wwwPfx ++ x) :: b ∧ x ∈ b) ∨
      wwwPfx ++ x ∈ seen := by
  intro l
  induction l with
  | nil => intro seen x hx _; simp [expandCore, dedupSeen] at hx
  | cons d0 rest ih =>
    intro seen x hx hxw
    cases hc0 : cleanup d0 with
    | none =>
      rw [expandCore_cons_none hc0] at hx ⊢
      exact ih seen x hx hxw
    | some c0 =>
      by_cases hw0 : wwwPfx.isPrefixOf c0 = true
      · have hite : (if wwwPfx.isPrefixOf c0 then [c0] else [c0, wwwPfx ++ c0]) = [c0] := by
          rw [hw0]; rfl
        rw [expandCore_cons_some hc0, hite, List.cons_append, List.nil_append] at hx ⊢
        by_cases hc0s : c0 ∈ seen
        · rw [dedupSeen_cons_mem hc0s] at hx ⊢
          exact ih seen x hx hxw
        · rw [dedupSeen_cons_not hc0s] at hx ⊢
          rcases List.mem_cons.mp hx with rfl | hx'
          · rw [hw0] at hxw; cases hxw
          · rcases ih (c0 :: seen) x hx' hxw with ⟨a, b, hab⟩ | ⟨a, b, hab, hxb⟩ | hws
            · exact Or.inl ⟨c0 :: a, b, by rw [hab]; rfl⟩
            · exact Or.inr (Or.inl ⟨c0 :: a, b, by rw [hab]; rfl, hxb⟩)
            · rcases List.mem_cons.mp hws with h1 | h1
              · exact Or.inr (Or.inl ⟨[], dedupSeen (c0 :: seen) (expandCore rest),
                  by rw [h1, List.nil_append], hx'⟩)
              · exact Or.inr (Or.inr h1)
      · have hw0f : wwwPfx.isPrefixOf c0 = false := Bool.eq_false_iff.mpr hw0
        have hite : (if wwwPfx.isPrefixOf c0 then [c0] else [c0, wwwPfx ++ c0])
            = [c0, wwwPfx ++ c0] := by rw [hw0f]; rfl
        rw [expandCore_cons_some hc0, hite, List.cons_append, List.cons_append,
          List.nil_append] at hx ⊢
        by_cases hc0s : c0 ∈ seen
        · by_cases hws0 : wwwPfx ++ c0 ∈ seen
          · rw [dedupSeen_cons_mem hc0s, dedupSeen_cons_mem hws0] at hx ⊢
            exact ih seen x hx hxw
          · rw [dedupSeen_cons_mem hc0s, dedupSeen_cons_not hws0] at hx ⊢
            rcases List.mem_cons.mp hx with rfl | hx'
            · rw [www_pfx_append] at hxw; cases hxw
            · rcases ih _ x hx' hxw with ⟨a, b, hab⟩ | ⟨a, b, hab, hxb⟩ | hws
              · exact Or.inl ⟨(wwwPfx ++ c0) :: a, b, by rw [hab]; rfl⟩
              · exact Or.inr (Or.inl ⟨(wwwPfx ++ c0) :: a, b, by rw [hab]; rfl, hxb⟩)
              · rcases List.mem_cons.mp hws with h1 | h1
                · exact Or.inr (Or.inl ⟨[], dedupSeen ((wwwPfx ++ c0) :: seen)
                    (expandCore rest), by rw [h1, List.nil_append], hx'⟩)
                · exact Or.inr (Or.inr h1)
        · have hcons : wwwPfx ++ c0 ∈ c0 :: seen ↔ wwwPfx ++ c0 ∈ seen := by
            constructor
            · intro h
              rcases List.mem_cons.mp h with h1 | h1
              · exact absurd h1 (www_ne_of_not_pfx hw0f c0)
              · exact h1
            · exact List.mem_cons_of_mem _
          rw [dedupSeen_cons_not hc0s] at hx ⊢
          by_cases hws : wwwPfx ++ c0 ∈ seen
          · rw [dedupSeen_cons_mem (hcons.mpr hws)] at hx ⊢
            rcases List.mem_cons.mp hx with rfl | hx'
            · exact Or.inr (Or.inr hws)
            · rcases ih (c0 :: seen) x hx' hxw with ⟨a, b, hab⟩ | ⟨a, b, hab, hxb⟩ | hws2
              · exact Or.inl ⟨c0 :: a, b, by rw [hab]; rfl⟩
              · exact Or.inr (Or.inl ⟨c0 :: a, b, by rw [hab]; rfl, hxb⟩)
              · rcases List.mem_cons.mp hws2 with h1 | h1
                · exact absurd (h1 ▸ www_pfx_append x) (by simp [hw0f])
                · exact Or.inr (Or.inr h1)
          · have hw2 : wwwPfx ++ c0 ∉ c0 :: seen := fun h => hws (hcons.mp h)
            rw [dedupSeen_cons_not hw2] at hx ⊢
            rcases List.mem_cons.mp hx with rfl | hx'
            · exact Or.inl ⟨[], dedupSeen ((wwwPfx ++ x) :: x :: seen) (expandCore rest),
                rfl⟩
            · rcases List.mem_cons.mp hx' with rfl | hx''
              · rw [www_pfx_append] at hxw; cases hxw
              · rcases ih _ x hx'' hxw with ⟨a, b, hab⟩ | ⟨a, b, hab, hxb⟩ | hws2
                · exact Or.inl ⟨c0 :: (wwwPfx ++ c0) :: a, b, by rw [hab]; rfl⟩
                · exact Or.inr (Or.inl ⟨c0 :: (wwwPfx ++ c0) :: a, b,
                    by rw [hab]; rfl, hxb⟩)
                · rcases List.mem_cons.mp hws2 with h1 | h1
                  · have hxc0 : x = c0 := www_inj h1
                    have hdisj := dedupSeen_disjoint _ _ x hx''
                    exact absurd (by
                      rw [hxc0]
                      exact List.mem_cons_of_mem _ (List.mem_cons_self _ _)) hdisj
                  · rcases List.mem_cons.mp h1 with h2 | h2
                    · exact absurd (h2 ▸ www_pfx_append x) (by simp [hw0f])
                    · exact Or.inr (Or.inr h2)

lemma inv_step {x : List Char} {rest' seen : List (List Char)}
    (h1 : ∀ y ∈ x :: rest', y ∉ seen)
    (h2 : (x :: rest').Nodup)
    (h3 : ∀ z ∈ x :: rest', wwwPfx.isPrefixOf z = false → wwwPfx ++ z ∉ seen →
      (∃ a b, x :: rest' = a ++ z :: (wwwPfx ++ z) :: b) ∨
      (∃ a b, x :: rest' = a ++ (wwwPfx ++ z) :: b ∧ z ∈ b)) :
    (∀ y ∈ rest', y ∉ x :: seen) ∧
    (∀ z ∈ rest', wwwPfx.isPrefixOf z = false → wwwPfx ++ z ∉ x :: seen →
      (∃ a b, rest' = a ++ z :: (wwwPfx ++ z) :: b) ∨
      (∃ a b, rest' = a ++ (wwwPfx ++ z) :: b ∧ z ∈ b)) := by
  have hnd := List.nodup_cons.mp h2
  constructor
  · intro y hy hmem
    rcases List.mem_cons.mp hmem with h5 | h5
    · exact hnd.1 (h5 ▸ hy)
    · exact h1 y (List.mem_cons_of_mem _ hy) h5
  · intro z hz hzw hzs
    have hzs' : wwwPfx ++ z ∉ seen := fun h => hzs (List.mem_cons_of_mem _ h)
    have hzx : wwwPfx ++ z ≠ x := fun h => hzs (h ▸ List.mem_cons_self _ _)
    have hzx2 : z ≠ x := fun he => hnd.1 (he ▸ hz)
    rcases h3 z (List.mem_cons_of_mem _ hz) hzw hzs' with ⟨a, b, hab⟩ | ⟨a, b, hab, hzb⟩
    · obtain ⟨a2, _, hL⟩ := peel_cons hab hzx2
      exact Or.inl ⟨a2, b, hL⟩
    · obtain ⟨a2, _, hL⟩ := peel_cons hab hzx
      exact Or.inr ⟨a2, b, hL, hzb⟩

lemma dedup_blocks_bound :
    ∀ (n : Nat) (rest seen : List (List Char)),
      rest.length ≤ n →
      (∀ y ∈ rest, y ∉ seen) →
      rest.Nodup →
      (∀ x ∈ rest, wwwPfx.isPrefixOf x = false → wwwPfx ++ x ∉ seen →
        (∃ a b, rest = a ++ x :: (wwwPfx ++ x) :: b) ∨
        (∃ a b, rest = a ++ (wwwPfx ++ x) :: b ∧ x ∈ b)) →
      (∀ x ∈ rest, cleanup x = some x) →
      dedupSeen seen (expandCore rest) = rest := by
  intro n
  induction n with
  | zero =>
    intro rest seen hlen _ _ _ _
    have hr : rest = [] := List.length_eq_zero.mp (Nat.le_zero.mp hlen)
    subst hr
    rfl
  | succ n ih =>
    intro rest seen hlen h1 h2 h3 h4
    cases rest with
    | nil => rfl
    | cons x rest' =>
      have hx4 : cleanup x = some x := h4 x (List.mem_cons_self _ _)
      have hxseen : x ∉ seen := h1 x (List.mem_cons_self _ _)
      have hnd := List.nodup_cons.mp h2
      obtain ⟨h1', h3'⟩ := inv_step h1 h2 h3
      have h4' : ∀ z ∈ rest', cleanup z = some z :=
        fun z hz => h4 z (List.mem_cons_of_mem _ hz)
      have hlen' : rest'.length ≤ n := by simp at hlen; omega
      by_cases hwx : wwwPfx.isPrefixOf x = true
      · have hite : (if wwwPfx.isPrefixOf x then [x] else [x, wwwPfx ++ x]) = [x] := by
          rw [hwx]; rfl
        rw [expandCore_cons_some hx4, hite, List.cons_append, List.nil_append,
          dedupSeen_cons_not hxseen]
        congr 1
        exact ih rest' (x :: seen) hlen' h1' hnd.2 h3' h4'
      · have hwxf : wwwPfx.isPrefixOf x = false := Bool.eq_false_iff.mpr hwx
        have hite : (if wwwPfx.isPrefixOf x then [x] else [x, wwwPfx ++ x])
            = [x, wwwPfx ++ x] := by rw [hwxf]; rfl
        rw [expandCore_cons_some hx4, hite, List.cons_append, List.cons_append,
          List.nil_append, dedupSeen_cons_not hxseen]
        by_cases hwxs : wwwPfx ++ x ∈ seen
        · rw [dedupSeen_cons_mem (List.mem_cons_of_mem _ hwxs)]
          congr 1
          exact ih rest' (x :: seen) hlen' h1' hnd.2 h3' h4'
        · rcases h3 x (List.mem_cons_self _ _) hwxf hwxs with ⟨a, b, hab⟩ | ⟨a, b, hab, hxb⟩
          · cases a with
            | cons w a2 =>
              rw [List.cons_append] at hab
              have htl := List.tail_eq_of_cons_eq hab
              exact absurd (by
                rw [htl]
                exact List.mem_append_right _ (List.mem_cons_self _ _)) hnd.1
            | nil =>
              rw [List.nil_append] at hab
              have hrest' : rest' = (wwwPfx ++ x) :: b := List.tail_eq_of_cons_eq hab
              subst hrest'
              have hwx4 : cleanup (wwwPfx ++ x) = some (wwwPfx ++ x) :=
                h4 _ (List.mem_cons_of_mem _ (List.mem_cons_self _ _))
              have hite2 : (if wwwPfx.isPrefixOf (wwwPfx ++ x) then [wwwPfx ++ x]
                  else [wwwPfx ++ x, wwwPfx ++ (wwwPfx ++ x)]) = [wwwPfx ++ x] := by
                rw [www_pfx_append]; rfl
              rw [expandCore_cons_some hwx4, hite2, List.cons_append, List.nil_append]
              have hwxx : wwwPfx ++ x ∉ x :: seen := by
                intro h
                rcases List.mem_cons.mp h with h5 | h5
                · exact www_ne_of_not_pfx hwxf x h5
                · exact hwxs h5
              rw [dedupSeen_cons_not hwxx, dedupSeen_cons_mem (List.mem_cons_self _ _)]
              congr 2
              obtain ⟨h1'', h3''⟩ := inv_step h1' hnd.2 h3'
              have h4'' : ∀ z ∈ b, cleanup z = some z :=
                fun z hz => h4' z (List.mem_cons_of_mem _ hz)
              have hlen'' : b.length ≤ n := by simp at hlen; omega
              exact ih b ((wwwPfx ++ x) :: x :: seen) hlen'' h1''
                (List.nodup_cons.mp hnd.2).2 h3'' h4''
          · cases a with
            | nil =>
              rw [List.nil_append] at hab
              exact absurd (List.head_eq_of_cons_eq hab).symm (www_ne_of_not_pfx hwxf x)
            | cons w a2 =>
              rw [List.cons_append] at hab
              have htl := List.tail_eq_of_cons_eq hab
              exact absurd (by
                rw [htl]
                exact List.mem_append_right _ (List.mem_cons_of_mem _ hxb)) hnd.1

lemma expand_idem_of_fix (l : List (List Char))
    (H : ∀ c ∈ expand_domains l, cleanup c = some c) :
    expand_domains (expand_domains l) = expand_domains l := by
  apply dedup_blocks_bound (expand_domains l).length _ _ (Nat.le_refl _)
  · intro y _ hy
    simp at hy
  · exact nodup_expand l
  · intro x hx hw hws
    rcases ord_out l [] x hx hw with h | h | h
    · exact Or.inl h
    · exact Or.inr h
    · simp at h
  · exact H

lemma apply_root_ok (domains : List (List Char)) (fs : FState) :
    apply_hosts_block true true domains fs
      = ((true, none), ⟨applyDoc domains fs.hosts, fs.readCount + 1, fs.writeCount + 1⟩) :=
  rfl

lemma clear_root_ok (fs : FState) :
    clear_hosts_block true true fs
      = ((true, none), ⟨clearDoc fs.hosts, fs.readCount + 1, fs.writeCount + 1⟩) :=
  rfl

lemma applyDoc_idem (domains : List (List Char)) (h : List Char)
    (hS : countOcc TAG_START (strip_ultra_block_section h) = 0) :
    applyDoc domains (applyDoc domains h) = applyDoc domains h := by
  have h1 := strip_applyDoc domains h hS
  calc applyDoc domains (applyDoc domains h)
      = strip_ultra_block_section (applyDoc domains h)
          ++ '\n' :: (blockText (expand_domains domains) ++ ['\n']) := rfl
    _ = strip_ultra_block_section h
          ++ '\n' :: (blockText (expand_domains domains) ++ ['\n']) := by rw [h1]
    _ = applyDoc domains h := rfl

/-- Claim C1 counterexample: the claim fails on an initial hosts document
that already contains a stray end marker.  Starting from a hosts document
equal to the end-marker line, two successful applications of
`apply_hosts_block` with the same (empty) domain list leave a document with
two occurrences of the end marker, not one. -/
theorem C1_counterexample :
    countOcc TAG_END ((apply_hosts_block true true []
        (apply_hosts_block true true [] ⟨TAG_END, 0, 0⟩).2).2.hosts) = 2 := by
  decide

/-- Claim C1 (amended): for every domain list and every initial hosts
document whose stripped form contains no occurrence of either marker,
applying twice (as root, with successful writes) yields the same document as
applying once: the stripped original followed by a single fresh tagged block
whose entries are exactly the normalized domains, with exactly one start
marker and one end marker. -/
theorem C1_apply_idempotent (domains : List (List Char)) (fs : FState)
    (hS : countOcc TAG_START (strip_ultra_block_section fs.hosts) = 0)
    (hE : countOcc TAG_END (strip_ultra_block_section fs.hosts) = 0) :
    (apply_hosts_block true true domains
        (apply_hosts_block true true domains fs).2).2.hosts
      = (apply_hosts_block true true domains fs).2.hosts ∧
    (apply_hosts_block true true domains fs).2.hosts
      = strip_ultra_block_section fs.hosts
          ++ '\n' :: (blockText (expand_domains domains) ++ ['\n']) ∧
    countOcc TAG_START ((apply_hosts_block true true domains
        (apply_hosts_block true true domains fs).2).2.hosts) = 1 ∧
    countOcc TAG_END ((apply_hosts_block true true domains
        (apply_hosts_block true true domains fs).2).2.hosts) = 1 := by
  simp only [apply_root_ok]
  refine ⟨applyDoc_idem domains fs.hosts hS, rfl, ?_, ?_⟩
  · rw [applyDoc_idem domains fs.hosts hS]
    exact countOcc_applyDoc_S domains fs.hosts hS
  · rw [applyDoc_idem domains fs.hosts hS]
    exact countOcc_applyDoc_E domains fs.hosts hE

/-- Claim C1 witness: the amended idempotence theorem applied to the empty
initial document and the domain list `["example.com"]`. -/
theorem C1_apply_idempotent_witness :
    (apply_hosts_block true true ["example.com".data]
        (apply_hosts_block true true ["example.com".data] ⟨[], 0, 0⟩).2).2.hosts
      = (apply_hosts_block true true ["example.com".data] ⟨[], 0, 0⟩).2.hosts :=
  (C1_apply_idempotent ["example.com".data] ⟨[], 0, 0⟩ (by decide) (by decide)).1

/-- Claim C2 counterexample: apply-then-clear is not byte-identical in
general.  From the document `"x"` (no trailing newline), applying and then
clearing yields `"x\n"`, not `"x"` — strip normalizes trailing whitespace
even outside the tagged block. -/
theorem C2_counterexample :
    (clear_hosts_block true true
        (apply_hosts_block true true [] ⟨['x'], 0, 0⟩).2).2.hosts ≠ ['x'] := by
  decide

/-- Claim C2 (amended): for every domain list and every initial hosts
document that contains no occurrence of the start marker and is already
trailing-normalized (equal to its own rstrip plus a single newline), a
successful apply followed by a successful clear restores the document
byte-identically; moreover the applied document is exactly the untouched
original followed by the tagged block, so content outside the block is
preserved. -/
theorem C2_apply_then_clear (domains : List (List Char)) (fs : FState)
    (hS : countOcc TAG_START fs.hosts = 0)
    (hN : rstrip fs.hosts ++ ['\n'] = fs.hosts) :
    (clear_hosts_block true true
        (apply_hosts_block true true domains fs).2).2.hosts = fs.hosts ∧
    (apply_hosts_block true true domains fs).2.hosts
      = fs.hosts ++ '\n' :: (blockText (expand_domains domains) ++ ['\n']) := by
  have hfix : strip_ultra_block_section fs.hosts = fs.hosts := by
    unfold strip_ultra_block_section
    rw [stripMatches_id_of_noStart hS, hN]
  have hS2 : countOcc TAG_START (strip_ultra_block_section fs.hosts) = 0 := by
    rw [hfix]; exact hS
  simp only [apply_root_ok, clear_root_ok]
  constructor
  · show clearDoc (applyDoc domains fs.hosts) = fs.hosts
    unfold clearDoc
    rw [strip_applyDoc domains fs.hosts hS2, hfix]
  · show applyDoc domains fs.hosts = _
    unfold applyDoc
    rw [hfix]

/-- Claim C2 witness: the amended restore theorem applied to the document
`"x\n"` and the empty domain list. -/
theorem C2_apply_then_clear_witness :
    (clear_hosts_block true true
        (apply_hosts_block true true [] ⟨['x', '\n'], 0, 0⟩).2).2.hosts
      = ['x', '\n'] :=
  (C2_apply_then_clear [] ⟨['x', '\n'], 0, 0⟩ (by decide) (by decide)).1

/-- Claim C3: without elevated privilege, `apply_hosts_block` and
`clear_hosts_block` both fail with error kind `"permission"` and the
file-system state is returned untouched: no read and no write of the hosts
file happens (the counters are unchanged) and the hosts document is
unchanged. -/
theorem C3_permission_no_file_access (writeOk : Bool) (domains : List (List Char))
    (fs : FState) :
    apply_hosts_block false writeOk domains fs = ((false, some "permission"), fs) ∧
    clear_hosts_block false writeOk fs = ((false, some "permission"), fs) :=
  ⟨rfl, rfl⟩

/-- Claim C4: for `timer:sync` and `timer:penalty` events, an empty (after
trimming) room id is silently discarded — no acknowledgment and no
emission; otherwise the payload is relayed verbatim (as `timer:state`,
resp. `timer:penalty`) to exactly the members of that room other than the
sender: no emission targets the sender, every emission carries the original
payload, and every other member receives it. -/
theorem C4_relay_except_sender {α : Type} (st : RoomState) (sender : Sid)
    (data : Payload α) :
    (pyStrip data.roomId = [] →
      on_timer_sync st sender data = (none, []) ∧
      on_timer_penalty st sender data = (none, [])) ∧
    (on_timer_sync st sender data).1 = none ∧
    (on_timer_penalty st sender data).1 = none ∧
    (∀ e ∈ (on_timer_sync st sender data).2,
      e.event = "timer:state" ∧ e.msg = Msg.relay data ∧ e.target ≠ sender ∧
        e.target ∈ findRoom st.rooms (pyStrip data.roomId)) ∧
    (∀ e ∈ (on_timer_penalty st sender data).2,
      e.event = "timer:penalty" ∧ e.msg = Msg.relay data ∧ e.target ≠ sender ∧
        e.target ∈ findRoom st.rooms (pyStrip data.roomId)) ∧
    (pyStrip data.roomId ≠ [] →
      ∀ m ∈ findRoom st.rooms (pyStrip data.roomId), m ≠ sender →
        (⟨"timer:state", m, Msg.relay data⟩ : Emission α)
            ∈ (on_timer_sync st sender data).2 ∧
          (⟨"timer:penalty", m, Msg.relay data⟩ : Emission α)
            ∈ (on_timer_penalty st sender data).2) := by
  by_cases hrid : pyStrip data.roomId = []
  · rw [on_timer_sync, on_timer_penalty, if_pos hrid, if_pos hrid]
    refine ⟨fun _ => ⟨rfl, rfl⟩, rfl, rfl, ?_, ?_, ?_⟩
    · intro e he; simp at he
    · intro e he; simp at he
    · intro h; exact absurd hrid h
  · rw [on_timer_sync, on_timer_penalty, if_neg hrid, if_neg hrid]
    refine ⟨fun h => absurd h hrid, rfl, rfl, ?_, ?_, ?_⟩
    · intro e he
      simp only [List.mem_map, List.mem_filter] at he
      obtain ⟨m, ⟨hm, hms⟩, rfl⟩ := he
      exact ⟨rfl, rfl, by simpa using hms, hm⟩
    · intro e he
      simp only [List.mem_map, List.mem_filter] at he
      obtain ⟨m, ⟨hm, hms⟩, rfl⟩ := he
      exact ⟨rfl, rfl, by simpa using hms, hm⟩
    · intro _ m hm hms
      constructor
      · simp only [List.mem_map, List.mem_filter]
        exact ⟨m, ⟨hm, by simpa using hms⟩, rfl⟩
      · simp only [List.mem_map, List.mem_filter]
        exact ⟨m, ⟨hm, by simpa using hms⟩, rfl⟩

/-- Claim C4 witness: in a room `"a"` with members 1 and 2, a `timer:sync`
event sent by connection 1 is delivered to connection 2 but never back to
connection 1. -/
theorem C4_relay_except_sender_witness :
    (⟨"timer:state", 2, Msg.relay ⟨"a".data, (0 : Nat)⟩⟩ : Emission Nat)
        ∈ (on_timer_sync ⟨[("a".data, [1, 2])]⟩ 1 ⟨"a".data, (0 : Nat)⟩).2 ∧
      ∀ e ∈ (on_timer_sync ⟨[("a".data, [1, 2])]⟩ 1 ⟨"a".data, (0 : Nat)⟩).2,
        e.target ≠ 1 := by
  have h := C4_relay_except_sender (α := Nat) ⟨[("a".data, [1, 2])]⟩ 1 ⟨"a".data, 0⟩
  constructor
  · exact ((h.2.2.2.2.2 (by decide) 2 (by decide) (by decide)).1)
  · intro e he
    exact (h.2.2.2.1 e he).2.2.1

/-- Claim C5 counterexample: `expand_domains` is not idempotent.  On the
input list `["http://"]` one pass yields `["", "www."]` (the emptiness check
happens before scheme removal), and a second pass drops the now-empty entry,
yielding `["www."]`. -/
theorem C5_counterexample :
    expand_domains (expand_domains ["http://".data])
      ≠ expand_domains ["http://".data] := by
  decide

/-- Claim C5 (amended): `expand_domains` is idempotent on every input list
whose normalized output consists of canonical fixed points (each produced
domain cleans up to itself); the counterexamples are exactly the inputs
whose canonical form is empty or retains whitespace before a `/`. -/
theorem C5_expand_idempotent (l : List (List Char))
    (H : ∀ c ∈ expand_domains l, cleanup c = some c) :
    expand_domains (expand_domains l) = expand_domains l :=
  expand_idem_of_fix l H

/-- Claim C5 witness: idempotence on `["example.com"]`. -/
theorem C5_expand_idempotent_witness :
    expand_domains (expand_domains ["example.com".data])
      = expand_domains ["example.com".data] :=
  C5_expand_idempotent ["example.com".data] (by decide)

/-- Claim C6: for every domain list whose canonical forms do not start with
`www.`, the normalized output is duplicate-free and contains, for each
canonical form `c`, both `c` and `www.c`, with `c` occurring before `www.c`
(the pair `[c, www.c]` is a sublist of the output). -/
theorem C6_bare_before_www (l : List (List Char))
    (H : ∀ d ∈ l, ∀ c, cleanup d = some c → wwwPfx.isPrefixOf c = false) :
    (expand_domains l).Nodup ∧
    ∀ d ∈ l, ∀ c, cleanup d = some c →
      c ∈ expand_domains l ∧ (wwwPfx ++ c) ∈ expand_domains l ∧
        List.Sublist [c, wwwPfx ++ c] (expand_domains l) := by
  refine ⟨nodup_expand l, ?_⟩
  intro d hd c hc
  have hsub := dedup_pair_sublist l [] (fun x hx => by simp at hx) H d hd c hc (by simp)
  exact ⟨hsub.subset (List.mem_cons_self _ _),
    hsub.subset (List.mem_cons_of_mem _ (List.mem_cons_self _ _)), hsub⟩

/-- Claim C6 witness: for the input `["example.com"]` the output is
duplicate-free and lists `example.com` immediately before
`www.example.com`. -/
theorem C6_bare_before_www_witness :
    (expand_domains ["example.com".data]).Nodup ∧
    List.Sublist ["example.com".data, wwwPfx ++ "example.com".data]
      (expand_domains ["example.com".data]) := by
  have H : ∀ d ∈ ["example.com".data], ∀ c, cleanup d = some c →
      wwwPfx.isPrefixOf c = false := by
    intro d hd c hc
    simp at hd
    subst hd
    have he : cleanup "example.com".data = some "example.com".data := by decide
    rw [he] at hc
    cases hc
    decide
  have h := C6_bare_before_www ["example.com".data] H
  exact ⟨h.1, (h.2 "example.com".data (by simp) "example.com".data (by decide)).2.2⟩

/-- Claim C7: a `room:join` or `room:leave` event whose room id is empty
after trimming fails with `{ok: false, error: "missing roomId"}`, leaves the
room registry unchanged, and emits nothing. -/
theorem C7_missing_room_id {α : Type} (st : RoomState) (sender : Sid)
    (data : Payload α) (h : pyStrip data.roomId = []) :
    on_room_join st sender data = (Ack.err "missing roomId", st, []) ∧
    on_room_leave st sender data = (Ack.err "missing roomId", st, []) := by
  rw [on_room_join, on_room_leave, if_pos h, if_pos h]
  exact ⟨rfl, rfl⟩

/-- Claim C7 witness: joining or leaving with the whitespace-only room id
`" "` is rejected without a state change or broadcast. -/
theorem C7_missing_room_id_witness :
    on_room_join (⟨[]⟩ : RoomState) 0 (⟨" ".data, (0 : Nat)⟩ : Payload Nat)
        = (Ack.err "missing roomId", ⟨[]⟩, []) ∧
      on_room_leave (⟨[]⟩ : RoomState) 0 (⟨" ".data, (0 : Nat)⟩ : Payload Nat)
        = (Ack.err "missing roomId", ⟨[]⟩, []) :=
  C7_missing_room_id ⟨[]⟩ 0 ⟨" ".data, 0⟩ (by decide)

/-- Claim C8 counterexample: a document consisting of the end marker alone
(end marker present, no start marker) is not left unchanged by
`strip_ultra_block_section`: a newline is appended. -/
theorem C8_counterexample :
    countOcc TAG_END TAG_END = 1 ∧ countOcc TAG_START TAG_END = 0 ∧
      strip_ultra_block_section TAG_END ≠ TAG_END := by
  decide

/-- Claim C8 (amended): on a document with no start marker (in particular an
end marker without a matching start marker), the regex deletion removes
nothing — no partial region is deleted — and the whole operation only
normalizes trailing whitespace: the result is `rstrip(doc) + "\n"`. -/
theorem C8_no_partial_deletion (doc : List Char)
    (hS : countOcc TAG_START doc = 0) :
    stripMatches doc = doc ∧
    strip_ultra_block_section doc = rstrip doc ++ ['\n'] := by
  have h1 := stripMatches_id_of_noStart hS
  refine ⟨h1, ?_⟩
  unfold strip_ultra_block_section
  rw [h1]

/-- Claim C8 witness: the amended no-deletion theorem applied to the
document consisting of the stray end marker. -/
theorem C8_no_partial_deletion_witness :
    stripMatches TAG_END = TAG_END ∧
      strip_ultra_block_section TAG_END = rstrip TAG_END ++ ['\n'] :=
  C8_no_partial_deletion TAG_END (by decide)

/-- Claim C9: `resolve_all` maps a failed resolution to the empty list
instead of an error, and a successful resolution to the sorted list of the
distinct resolved addresses (sorted, duplicate-free, containing exactly the
addresses returned by the system resolver).  It takes no privilege or
file-system arguments: it is a pure function of the resolver outcome. -/
theorem C9_resolve_sorted_distinct (addrs : List String) :
    resolve_all none = [] ∧
    (resolve_all (some addrs)).Sorted (fun a b => a ≤ b) ∧
    (resolve_all (some addrs)).Nodup ∧
    (∀ a, a ∈ resolve_all (some addrs) ↔ a ∈ addrs) := by
  refine ⟨rfl, ?_, ?_, ?_⟩
  · exact List.sorted_insertionSort _ _
  · exact ((List.perm_insertionSort _ _).nodup_iff).mpr (List.nodup_dedup addrs)
  · intro a
    show a ∈ List.insertionSort (fun a b => a ≤ b) addrs.dedup ↔ a ∈ addrs
    rw [(List.perm_insertionSort _ _).mem_iff, List.mem_dedup]

/-- Claim C10: `strip_ultra_block_section` always returns its input with the
tagged spans removed, trailing whitespace stripped and exactly one final
newline appended — even when no tagged block is present (in which case the
result is `rstrip(s) + "\n"`), so it can alter a document's trailing
whitespace outside any tagged block (e.g. on `"x"`). -/
theorem C10_strip_normalizes_trailing (s : List Char) :
    (∃ t, strip_ultra_block_section s = t ++ ['\n'] ∧ rstrip t = t) ∧
    (countOcc TAG_START s = 0 → strip_ultra_block_section s = rstrip s ++ ['\n']) ∧
    strip_ultra_block_section ['x'] ≠ ['x'] := by
  refine ⟨⟨rstrip (stripMatches s), rfl, rstrip_idem _⟩, ?_, by decide⟩
  intro h
  unfold strip_ultra_block_section
  rw [stripMatches_id_of_noStart h]

/-- Claim C10 witness: on the block-free document `"x"` the strip rewrites
it to `rstrip("x") + "\n" = "x\n"`. -/
theorem C10_strip_normalizes_trailing_witness :
    strip_ultra_block_section ['x'] = rstrip ['x'] ++ ['\n'] :=
  (C10_strip_normalizes_trailing ['x']).2.1 (by decide)

end Pmdr
